import Mathlib

/-!
Verification of the core text-processing and grading logic of the
anki-voice repository, shallowly embedded in Lean.

The embedding covers:
* `app/normalize.py` — `normalize_text` and `html_to_text_readme_only`;
* `app/judge.py` — `list_set_match` and `ease_from_verdict`;
* `app/main.py` — `sanitize_deck_name_for_filename`, `extract_lang_from_tags`,
  `get_deck_language_config` (with its cache) and `get_language_hints`
  together with the `en-US` defaulting done at its call site in `current`;
* `anki-deck-update/anki_voice_lang_setup.py` — `sanitize_for_filename`.

Python strings are modelled as `String`/`List Char`.  External collaborators
(AnkiConnect, the HTML parser, the media store) are modelled as explicit
function parameters; their failures are modelled as `none` results.
-/

namespace AnkiVoice

/-! ### Python character classes (app/normalize.py, app/main.py)

The whitespace class of `re`'s `\s` and of `str.strip`, restricted to the
ASCII whitespace characters.  (Exotic Unicode whitespace behaves identically
throughout: every function below either replaces it by a plain space or
strips it.) -/

/-- Python whitespace, ASCII part. -/
def pyIsSpace (c : Char) : Bool :=
  c = ' ' || c = '\t' || c = '\n' || c = '\r' || c = '\x0b' || c = '\x0c'

/-! ### `html.unescape` (Python stdlib, called by `normalize_text`) -/

/-- If the text following a `&` begins with a known entity reference, the
replacement character and the remaining text.  `html.unescape` is modelled
on the common named/numeric entities; every entity reference begins with
`&`, which is the only property the proofs rely on beyond concrete runs. -/
def entityHead (l : List Char) : Option (Char × List Char) :=
  if l.take 4 = ['a', 'm', 'p', ';'] then some ('&', l.drop 4)
  else if l.take 3 = ['l', 't', ';'] then some ('<', l.drop 3)
  else if l.take 3 = ['g', 't', ';'] then some ('>', l.drop 3)
  else if l.take 5 = ['q', 'u', 'o', 't', ';'] then some ('"', l.drop 5)
  else if l.take 5 = ['a', 'p', 'o', 's', ';'] then some ('\x27', l.drop 5)
  else if l.take 5 = ['n', 'b', 's', 'p', ';'] then some ('\xa0', l.drop 5)
  else if l.take 4 = ['#', '3', '9', ';'] then some ('\x27', l.drop 4)
  else none

/-- The scanning loop of `html.unescape`, structured over a step counter so
that the recursion is structural.  Every step consumes at least one input
character (an entity reference consumes at least four), so `l.length` steps
always suffice; with the counter exhausted the remaining text is returned
unchanged. -/
def unescapeSteps : Nat → List Char → List Char
  | 0, l => l
  | _ + 1, [] => []
  | f + 1, c :: rest =>
    if c = '&' then
      match entityHead rest with
      | some (r, rest') => r :: unescapeSteps f rest'
      | none => '&' :: unescapeSteps f rest
    else c :: unescapeSteps f rest

/-- Python `html.unescape`, modelled on the entity table above. -/
def htmlUnescape (l : List Char) : List Char :=
  unescapeSteps l.length l

/-! ### `normalize_text` (app/normalize.py, lines 98-103) -/

/-- The character class kept by the first `re.sub` of `normalize_text`
(lower-case letters, digits, whitespace, slash, hyphen). -/
def allowedChar (c : Char) : Bool :=
  ('a' ≤ c && c ≤ 'z') || ('0' ≤ c && c ≤ '9') || pyIsSpace c || c = '/' || c = '-'

/-- The first `re.sub` of `normalize_text`: every disallowed character
becomes a space. -/
def stripDisallowed (l : List Char) : List Char :=
  l.map fun c => if allowedChar c then c else ' '

/-- The second `re.sub` of `normalize_text`: every maximal whitespace run
becomes one space.  A run is walked with a one-character lookahead (an inner
whitespace character followed by more whitespace emits nothing; the run's
last whitespace character emits the single replacement space), which keeps
the recursion structural. -/
def collapseWs : List Char → List Char
  | [] => []
  | [c] => if pyIsSpace c then [' '] else [c]
  | c :: d :: rest =>
    if pyIsSpace c then
      if pyIsSpace d then collapseWs (d :: rest)
      else ' ' :: collapseWs (d :: rest)
    else c :: collapseWs (d :: rest)

/-- Python `str.strip()` (no argument): whitespace removed at both ends. -/
def pyStrip (l : List Char) : List Char :=
  (l.dropWhile pyIsSpace).rdropWhile pyIsSpace

/-- app/normalize.py `normalize_text` on character lists: HTML-unescape,
lowercase, replace every character outside the allowed class by a space,
collapse whitespace runs, trim.  (`str.lower` is modelled by `Char.toLower`;
a non-ASCII letter is replaced by a space in the next step either way.) -/
def normalizeList (l : List Char) : List Char :=
  pyStrip (collapseWs (stripDisallowed ((htmlUnescape l).map Char.toLower)))

/-- `normalize_text` on `String`. -/
def normalize_text (s : String) : String :=
  ⟨normalizeList s.data⟩

/-! ### `list_set_match` and `ease_from_verdict` (app/judge.py) -/

/-- Does `pat` occur as a contiguous sublist of the text? -/
def subList (pat : List Char) : List Char → Bool
  | [] => pat.isPrefixOf []
  | t@(_ :: bs) => pat.isPrefixOf t || subList pat bs

/-- Python's `a in txt` on strings: contiguous substring. -/
def pySubstr (a txt : String) : Bool :=
  subList a.data txt.data

/-- app/judge.py `list_set_match`.  The canonical concept table (a Python
dict `name ↦ alias set`) is modelled as an association list in insertion
order, the alias set as a list.  `hits` collects, in table order, the
concepts one of whose aliases — or the canonical name itself, per the
`aliases` ∪ `canon` union of the source — occurs in the normalized
transcript; the `break` in the source makes one match per concept suffice. -/
def list_set_match (transcript : String) (canonical : List (String × List String)) :
    String × List String × List String :=
  let txt := normalize_text transcript
  let hits := (canonical.filter fun ca => (ca.2 ++ [ca.1]).any fun a => pySubstr a txt).map
    Prod.fst
  let count := hits.length
  if count = canonical.length then ("correct", hits, [])
  else if count ≥ max 1 (canonical.length - 1) then
    ("partial", hits, (canonical.map Prod.fst).filter fun k => ¬ k ∈ hits)
  else
    ("wrong", hits, (canonical.map Prod.fst).filter fun k => ¬ k ∈ hits)

/-- app/judge.py `ease_from_verdict`.  The float confidence is modelled as a
rational; `0.85` is exactly `85/100`. -/
def ease_from_verdict (verdict : String) (confidence : ℚ := 1) : ℕ :=
  if verdict = "correct" ∧ confidence > 85 / 100 then 4
  else if verdict = "correct" then 3
  else if verdict = "partial" then 2
  else 1

/-! ### Deck-name sanitization (app/main.py lines 34-36 and
anki-deck-update/anki_voice_lang_setup.py lines 48-50, identical code) -/

/-- The character class kept by the sanitizers: letters, digits, dot,
underscore, hyphen. -/
def goodFileChar (c : Char) : Bool :=
  ('A' ≤ c && c ≤ 'Z') || ('a' ≤ c && c ≤ 'z') || ('0' ≤ c && c ≤ '9') ||
    c = '.' || c = '_' || c = '-'

/-- The `re.sub` of the sanitizers.  The pattern ends in `+`: every maximal
run of characters outside the class becomes a single underscore.  As in
`collapseWs`, a run is walked with a one-character lookahead and emits its
single `_` at the run's end, keeping the recursion structural. -/
def replaceBadRuns : List Char → List Char
  | [] => []
  | [c] => if goodFileChar c then [c] else ['_']
  | c :: d :: rest =>
    if goodFileChar c then c :: replaceBadRuns (d :: rest)
    else if goodFileChar d then '_' :: replaceBadRuns (d :: rest)
    else replaceBadRuns (d :: rest)

/-- app/main.py `sanitize_deck_name_for_filename`: `deck_name.strip()`, then
the run-replacing `re.sub`. -/
def sanitize_deck_name_for_filename (s : String) : String :=
  ⟨replaceBadRuns (pyStrip s.data)⟩

/-- anki-deck-update `sanitize_for_filename` — textually the same
computation as `sanitize_deck_name_for_filename`. -/
def sanitize_for_filename (s : String) : String :=
  sanitize_deck_name_for_filename s

/-- Claim-side sanitization for C3, following the spec's words: every single
character outside the class is replaced by one underscore. -/
def specPerCharSanitize (s : String) : String :=
  ⟨s.data.map fun c => if goodFileChar c then c else '_'⟩

/-! ### Tag overrides and language hints (app/main.py lines 62-108, 203-212) -/

/-- Python `str.startswith`, character-based. -/
def pyStartsWith (t p : String) : Bool :=
  p.data.isPrefixOf t.data

/-- app/main.py `extract_lang_from_tags`: the code segment
`tag[len(prefix)+1:]` of the first tag starting with `prefix=`. -/
def extract_lang_from_tags (tags : List String) (pfx : String) : Option String :=
  (tags.find? fun tag => pyStartsWith tag (pfx ++ "=")).map fun tag =>
    tag.drop (pfx.length + 1)

/-- A deck-level language config blob, `{"frontLang": ..., "backLang": ...}`;
a key may be missing (`dict.get` returns `None`). -/
structure DeckConfig where
  frontLang : Option String
  backLang : Option String
deriving DecidableEq

/-- Lookup in the process-wide `_deck_lang_cache`, modelled as an
association list. -/
def cacheLookup (cache : List (String × DeckConfig)) (deck : String) : Option DeckConfig :=
  (cache.find? fun e => e.1 = deck).map Prod.snd

/-- The media filename holding a deck's language config. -/
def deckConfigFilename (deck : String) : String :=
  "_ankiVoice.deck." ++ sanitize_deck_name_for_filename deck ++ ".json"

/-- app/main.py `get_deck_language_config` (lines 39-59).  `fetch` models
`retrieve_media_file` plus JSON decoding: `none` stands for a missing blob,
empty content or an exception.  Returns the config (if any) and the updated
cache. -/
def get_deck_language_config (fetch : String → Option DeckConfig)
    (cache : List (String × DeckConfig)) (deck : String) :
    Option DeckConfig × List (String × DeckConfig) :=
  match cacheLookup cache deck with
  | some cfg => (some cfg, cache)
  | none =>
    match fetch (deckConfigFilename deck) with
    | some cfg => (some cfg, (deck, cfg) :: cache)
    | none => (none, cache)

/-- Python truthiness of an optional string (`None` and `""` are falsy). -/
def pyTruthy : Option String → Bool
  | none => false
  | some s => !s.isEmpty

/-- Card metadata returned by `get_card_info`. -/
structure CardInfo where
  deckName : Option String
  note : Option Nat

/-- Note metadata returned by `get_note_info`. -/
structure NoteInfo where
  tags : List String

/-- The collaborator responses `get_language_hints` consults.  A `none`
`card_info` models both a fetch failure and a falsy (empty) response;
`deck_config` is the value `get_deck_language_config` yields for a deck. -/
structure AnkiEnv where
  card_info : Option CardInfo
  note_info : Nat → Option NoteInfo
  deck_config : String → Option DeckConfig

/-- The note tags fetched by `get_language_hints`: the note id must be
truthy (Python treats id `0` as falsy), the note-info fetch may fail, and
the `tags` key defaults to `[]`. -/
def noteTagsOf (env : AnkiEnv) (ci : CardInfo) : List String :=
  match ci.note with
  | some nid =>
    if nid ≠ 0 then
      match env.note_info nid with
      | some ni => ni.tags
      | none => []
    else []
  | none => []

/-- app/main.py `get_language_hints` (lines 70-108) as a function of the
collaborator responses.  A `none` deck config and Python's falsy `{}` config
behave identically here, since an empty dict supplies neither language. -/
def get_language_hints (env : AnkiEnv) : Option String × Option String :=
  match env.card_info with
  | none => (none, none)
  | some ci =>
    match ci.deckName with
    | none => (none, none)
    | some dn =>
      if dn.isEmpty then (none, none)
      else
        let note_tags := noteTagsOf env ci
        let front0 := extract_lang_from_tags note_tags "av:front"
        let back0 := extract_lang_from_tags note_tags "av:back"
        if !pyTruthy front0 || !pyTruthy back0 then
          match env.deck_config dn with
          | some cfg =>
            (if pyTruthy front0 then front0 else cfg.frontLang,
              if pyTruthy back0 then back0 else cfg.backLang)
          | none => (front0, back0)
        else (front0, back0)

/-- Python `x or "default"` on an optional string. -/
def pyOrDefault (x : Option String) (d : String) : String :=
  match x with
  | some s => if s.isEmpty then d else s
  | none => d

/-- The language resolution for a card: `get_language_hints` with the fixed
`en-US` default applied per side, as done at its call site in `current`
(app/main.py lines 203-212; the README-div language attribute belongs to the
extractor, not to this resolver, and is absent here). -/
def resolve_language (env : AnkiEnv) : String × String :=
  let h := get_language_hints env
  (pyOrDefault h.1 "en-US", pyOrDefault h.2 "en-US")

/-! ### Markup trees and `html_to_text_readme_only` (app/normalize.py)

`BeautifulSoup(s, "html.parser")` is an external collaborator; its result is
modelled directly as a forest of element/text nodes.  `html.parser` yields
multi-valued class attributes as (possibly empty) token lists, so the
`isinstance(classes, str)` arm of the source is dead and classes are lists
here. -/

/-- A parsed markup node: an element with tag name, class tokens, optional
`lang` attribute and children, or a text node. -/
inductive Node where
  | elem (tag : String) (classes : List String) (lang : Option String) (children : List Node)
  | text (s : String)

/-- The class token list of a node (`div.get("class", [])`). -/
def Node.classes : Node → List String
  | elem _ cs _ _ => cs
  | text _ => []

/-- The `lang` attribute of a node (`elem.get("lang")`). -/
def Node.langAttr : Node → Option String
  | elem _ _ l _ => l
  | text _ => none

/-- Is this node a `div` element? -/
def Node.isDiv : Node → Bool
  | elem t _ _ _ => t == "div"
  | text _ => false

/-- `if elem.get("lang")`: the node has a truthy (non-empty) `lang`. -/
def hasTruthyLang (n : Node) : Bool :=
  match n.langAttr with
  | some s => !s.isEmpty
  | none => false

/-- Does the class token list contain the given token? -/
def hasClass (cls : String) (n : Node) : Bool :=
  n.classes.contains cls

mutual
/-- All elements of a subtree (the root element first, document order), each
paired with its ancestor elements inside the traversal root (nearest first):
the data `find_all` plus `find_parent` need. -/
def elemsWithAnc (anc : List Node) : Node → List (Node × List Node)
  | Node.text _ => []
  | Node.elem t cs l ch =>
    (Node.elem t cs l ch, anc) :: elemsWithAncForest (Node.elem t cs l ch :: anc) ch

/-- `elemsWithAnc` over a forest, document order. -/
def elemsWithAncForest (anc : List Node) : List Node → List (Node × List Node)
  | [] => []
  | n :: ns => elemsWithAnc anc n ++ elemsWithAncForest anc ns
end

mutual
/-- All elements of a subtree with their nesting depth relative to the
traversal root (root itself at depth `d`), document order: the list
`[readme_div] + readme_div.find_all(True)` with the parent-walk depth of the
source attached. -/
def elemsWithDepth (d : Nat) : Node → List (Node × Nat)
  | Node.text _ => []
  | Node.elem t cs l ch => (Node.elem t cs l ch, d) :: elemsWithDepthForest (d + 1) ch

/-- `elemsWithDepth` over a forest. -/
def elemsWithDepthForest (d : Nat) : List Node → List (Node × Nat)
  | [] => []
  | n :: ns => elemsWithDepth d n ++ elemsWithDepthForest d ns
end

mutual
/-- The text fragments of a subtree, document order. -/
def textFragments : Node → List String
  | Node.text s => [s]
  | Node.elem _ _ _ ch => textFragmentsForest ch

/-- `textFragments` over a forest. -/
def textFragmentsForest : List Node → List String
  | [] => []
  | n :: ns => textFragments n ++ textFragmentsForest ns
end

/-- Python `str.strip` on `String`. -/
def pyStripStr (s : String) : String :=
  ⟨pyStrip s.data⟩

/-- BeautifulSoup `get_text(" ", strip=True)`: each text fragment stripped,
empty fragments dropped, the rest joined with single spaces. -/
def getTextSep (frs : List String) : String :=
  String.intercalate " " ((frs.map pyStripStr).filter fun s => !s.isEmpty)

/-- `get_text(" ", strip=True)` of a node. -/
def Node.getText (n : Node) : String :=
  getTextSep (textFragments n)

/-- `soup.get_text(" ", strip=True)` of the whole document. -/
def forestGetText (doc : List Node) : String :=
  getTextSep (textFragmentsForest doc)

/-- The README-div search loop (app/normalize.py lines 30-53): the first div
in document order whose class list contains "README" and which, when
`exclude_from_front` is set, has no `.from-front` div ancestor (the
`find_parent("div", class_="from-front")` test). -/
def findReadmeDiv (doc : List Node) (exclude_from_front : Bool) : Option Node :=
  ((elemsWithAncForest [] doc).find? fun na =>
      na.1.isDiv && hasClass "README" na.1 &&
        (!exclude_from_front ||
          (na.2.find? fun a => a.isDiv && hasClass "from-front" a).isNone)).map
    Prod.fst

/-- One step of the innermost-language scan of app/normalize.py lines 63-84:
elements without a truthy `lang` are skipped, a strictly greater depth
replaces the current champion (`if depth > max_depth`). -/
def innermostStep (acc : Option (Node × Nat)) (x : Node × Nat) : Option (Node × Nat) :=
  if hasTruthyLang x.1 then
    match acc with
    | none => some x
    | some y => if x.2 > y.2 then some x else some y
  else acc

/-- The element with a truthy `lang` attribute at maximal depth, first in
document order on ties (`max_depth` starts at `-1`, so any element beats the
empty champion). -/
def pickInnermost (l : List (Node × Nat)) : Option (Node × Nat) :=
  l.foldl innermostStep none

/-- The maximal depth occurring in a depth-annotated element list. -/
def maxDepthOf (l : List (Node × Nat)) : Nat :=
  (l.map Prod.snd).foldr max 0

/-- Claim-side selection for C5, written from the spec: among the elements
that carry a (truthy) language attribute, the first one in document order
whose depth is the maximum. -/
def specPickInnermost (l : List (Node × Nat)) : Option (Node × Nat) :=
  (l.filter fun x => hasTruthyLang x.1).find? fun x =>
    decide (x.2 = maxDepthOf (l.filter fun y => hasTruthyLang y.1))

/-- app/normalize.py `html_to_text_readme_only` after parsing: region
selection, text extraction and language resolution on a parsed document. -/
def readmeCore (doc : List Node) (exclude_from_front : Bool) : String × Option String :=
  match findReadmeDiv doc exclude_from_front with
  | some rd =>
    let lang := match pickInnermost (elemsWithDepth 0 rd) with
      | some ed => ed.1.langAttr
      | none => rd.langAttr
    (rd.getText, lang)
  | none => (forestGetText doc, none)

/-- app/normalize.py `html_to_text_readme_only` (lines 9-96).  `parse`
models `BeautifulSoup(s, "html.parser")`; `none` and `""` are the falsy
markup values short-circuited on entry (`if not s`). -/
def html_to_text_readme_only (parse : String → List Node) (s : Option String)
    (exclude_from_front : Bool := true) : String × Option String :=
  match s with
  | none => ("", none)
  | some str =>
    if str.isEmpty then ("", none)
    else readmeCore (parse str) exclude_from_front

/-! ## Supporting lemmas -/

theorem subList_iff_infix {pat txt : List Char} :
    subList pat txt = true ↔ pat <:+: txt := by
  induction txt with
  | nil =>
    simp only [subList, List.isPrefixOf_iff_prefix, List.infix_nil, List.prefix_nil]
  | cons b bs ih =>
    simp only [subList, Bool.or_eq_true, List.isPrefixOf_iff_prefix, ih]
    exact List.infix_cons_iff.symm

theorem pySubstr_iff {a txt : String} :
    pySubstr a txt = true ↔ a.data <:+: txt.data :=
  subList_iff_infix

theorem unescapeSteps_eq_self {l : List Char} (f : Nat) (h : ∀ c ∈ l, c ≠ '&') :
    unescapeSteps f l = l := by
  induction f generalizing l with
  | zero => rfl
  | succ f ih =>
    match l with
    | [] => rfl
    | c :: rest =>
      have hc : c ≠ '&' := h c (by simp)
      rw [unescapeSteps, if_neg hc]
      exact congrArg (c :: ·) (ih fun d hd => h d (by simp [hd]))

theorem htmlUnescape_eq_self {l : List Char} (h : ∀ c ∈ l, c ≠ '&') :
    htmlUnescape l = l :=
  unescapeSteps_eq_self _ h

/-! Character-class arithmetic. -/

theorem pyIsSpace_toNat {c : Char} (h : pyIsSpace c = true) :
    c.toNat = 32 ∨ c.toNat = 9 ∨ c.toNat = 10 ∨ c.toNat = 13 ∨
      c.toNat = 11 ∨ c.toNat = 12 := by
  simp only [pyIsSpace, Bool.or_eq_true, decide_eq_true_eq] at h
  rcases h with ((((rfl | rfl) | rfl) | rfl) | rfl) | rfl <;> decide

theorem allowedChar_toNat {c : Char} (h : allowedChar c = true) :
    (97 ≤ c.toNat ∧ c.toNat ≤ 122) ∨ (48 ≤ c.toNat ∧ c.toNat ≤ 57) ∨
      c.toNat = 32 ∨ c.toNat = 9 ∨ c.toNat = 10 ∨ c.toNat = 13 ∨
      c.toNat = 11 ∨ c.toNat = 12 ∨ c.toNat = 47 ∨ c.toNat = 45 := by
  simp only [allowedChar, Bool.or_eq_true, Bool.and_eq_true, decide_eq_true_eq] at h
  rcases h with (((⟨h1, h2⟩ | ⟨h1, h2⟩) | hsp) | rfl) | rfl
  · exact Or.inl ⟨h1, h2⟩
  · exact Or.inr (Or.inl ⟨h1, h2⟩)
  · rcases pyIsSpace_toNat hsp with h | h | h | h | h | h <;> omega
  · decide
  · decide

theorem allowedChar_toLower {c : Char} (h : allowedChar c = true) :
    Char.toLower c = c := by
  have hn := allowedChar_toNat h
  simp only [Char.toLower]
  split_ifs with hg
  · exfalso
    simp only [Bool.and_eq_true, decide_eq_true_eq, ge_iff_le] at hg
    have h65 : (65 : Nat) ≤ c.toNat := hg.1
    have h90 : c.toNat ≤ (90 : Nat) := hg.2
    omega
  · rfl

theorem allowedChar_ne_amp {c : Char} (h : allowedChar c = true) : c ≠ '&' := by
  rintro rfl
  exact absurd h (by decide)

theorem pyIsSpace_of_allowed_ws {c : Char} : pyIsSpace c = true → allowedChar c = true := by
  intro h
  simp [allowedChar, h]

/-! `collapseWs`: output shape and fixed points. -/

/-- A whitespace-normalised list: every whitespace character is a plain
space and no two adjacent characters are both whitespace. -/
def WsNormed (l : List Char) : Prop :=
  (∀ c ∈ l, pyIsSpace c = true → c = ' ') ∧
    l.Chain' fun a b => ¬(pyIsSpace a = true ∧ pyIsSpace b = true)

theorem collapseWs_cons_not_space {d : Char} (r : List Char) (hd : ¬ pyIsSpace d = true) :
    collapseWs (d :: r) = d :: collapseWs r := by
  cases r with
  | nil => simp [collapseWs, hd]
  | cons e rest => simp [collapseWs, hd]

theorem collapseWs_wsNormed (l : List Char) : WsNormed (collapseWs l) := by
  induction l using collapseWs.induct with
  | case1 => exact ⟨by simp [collapseWs], by simp [collapseWs]⟩
  | case2 c h => constructor <;> simp [collapseWs, h]
  | case3 c h => constructor <;> simp [collapseWs, h]
  | case4 c d rest hc hd ih =>
    rw [collapseWs, if_pos hc, if_pos hd]
    exact ih
  | case5 c d rest hc hd ih =>
    rw [collapseWs, if_pos hc, if_neg hd]
    obtain ⟨ihm, ihc⟩ := ih
    refine ⟨?_, ?_⟩
    · intro e he hsp
      rcases List.mem_cons.mp he with rfl | he
      · rfl
      · exact ihm e he hsp
    · rw [List.chain'_cons']
      refine ⟨?_, ihc⟩
      intro y hy
      rw [collapseWs_cons_not_space rest hd] at hy
      simp only [List.head?_cons, Option.mem_def, Option.some.injEq] at hy
      subst hy
      exact fun hb => hd hb.2
  | case6 c d rest hc ih =>
    rw [collapseWs_cons_not_space (d :: rest) hc]
    obtain ⟨ihm, ihc⟩ := ih
    refine ⟨?_, ?_⟩
    · intro e he hsp
      rcases List.mem_cons.mp he with rfl | he
      · exact absurd hsp hc
      · exact ihm e he hsp
    · rw [List.chain'_cons']
      exact ⟨fun y _ hb => hc hb.1, ihc⟩

theorem collapseWs_eq_self {l : List Char} (h : WsNormed l) : collapseWs l = l := by
  induction l using collapseWs.induct with
  | case1 => rfl
  | case2 c hsp =>
    have hc : c = ' ' := h.1 c (by simp) hsp
    simp [collapseWs, hsp, hc]
  | case3 c hsp => simp [collapseWs, hsp]
  | case4 c d rest hc hd ih =>
    exact absurd ⟨hc, hd⟩ (List.chain'_cons.mp h.2).1
  | case5 c d rest hc hd ih =>
    rw [collapseWs, if_pos hc, if_neg hd]
    have hc' : c = ' ' := h.1 c (by simp) hc
    have htail : WsNormed (d :: rest) :=
      ⟨fun e he => h.1 e (List.mem_cons_of_mem c he), (List.chain'_cons.mp h.2).2⟩
    rw [ih htail, hc']
  | case6 c d rest hc ih =>
    rw [collapseWs_cons_not_space (d :: rest) hc]
    have htail : WsNormed (d :: rest) :=
      ⟨fun e he => h.1 e (List.mem_cons_of_mem c he), (List.chain'_cons.mp h.2).2⟩
    rw [ih htail]

theorem mem_collapseWs {l : List Char} {c : Char} (h : c ∈ collapseWs l) :
    c ∈ l ∨ c = ' ' := by
  induction l using collapseWs.induct with
  | case1 => simp [collapseWs] at h
  | case2 c' hsp =>
    simp [collapseWs, hsp] at h
    exact Or.inr h
  | case3 c' hsp =>
    simp [collapseWs, hsp] at h
    exact Or.inl (by simp [h])
  | case4 c' d rest hc hd ih =>
    rw [collapseWs, if_pos hc, if_pos hd] at h
    rcases ih h with h' | h'
    · exact Or.inl (List.mem_cons_of_mem c' h')
    · exact Or.inr h'
  | case5 c' d rest hc hd ih =>
    rw [collapseWs, if_pos hc, if_neg hd] at h
    rcases List.mem_cons.mp h with rfl | h'
    · exact Or.inr rfl
    · rcases ih h' with h'' | h''
      · exact Or.inl (List.mem_cons_of_mem c' h'')
      · exact Or.inr h''
  | case6 c' d rest hc ih =>
    rw [collapseWs_cons_not_space (d :: rest) hc] at h
    rcases List.mem_cons.mp h with rfl | h'
    · exact Or.inl (List.mem_cons_self _ _)
    · rcases ih h' with h'' | h''
      · exact Or.inl (List.mem_cons_of_mem c' h'')
      · exact Or.inr h''

/-! `pyStrip`: containment and fixed points. -/

theorem pyStrip_subseg (l : List Char) : pyStrip l <:+: l :=
  (List.rdropWhile_prefix pyIsSpace (l.dropWhile pyIsSpace)).isInfix.trans
    (List.dropWhile_suffix pyIsSpace).isInfix

theorem pyStrip_idem (l : List Char) : pyStrip (pyStrip l) = pyStrip l := by
  unfold pyStrip
  have hdw : (((l.dropWhile pyIsSpace).rdropWhile pyIsSpace).dropWhile pyIsSpace) =
      (l.dropWhile pyIsSpace).rdropWhile pyIsSpace := by
    rw [List.dropWhile_eq_self_iff]
    intro hl
    have hpre := List.rdropWhile_prefix pyIsSpace (l.dropWhile pyIsSpace)
    have hne : l.dropWhile pyIsSpace ≠ [] := by
      intro hnil
      rw [hnil] at hl
      simp [List.rdropWhile] at hl
    have hget := @List.IsPrefix.getElem _ _ _ hpre 0 hl
    rw [List.get_eq_getElem, hget, ← List.head_eq_getElem _ hne]
    exact fun hsp => by simpa [hsp] using List.head_dropWhile_not pyIsSpace l hne
  rw [hdw, List.rdropWhile_idempotent]

/-! Fixed points of the remaining `normalize_text` stages. -/

theorem map_toLower_eq_self {l : List Char} (h : ∀ c ∈ l, Char.toLower c = c) :
    l.map Char.toLower = l := by
  induction l with
  | nil => rfl
  | cons c rest ih =>
    rw [List.map_cons, h c (by simp), ih fun d hd => h d (by simp [hd])]

theorem stripDisallowed_eq_self {l : List Char} (h : ∀ c ∈ l, allowedChar c = true) :
    stripDisallowed l = l := by
  unfold stripDisallowed
  induction l with
  | nil => rfl
  | cons c rest ih =>
    rw [List.map_cons, if_pos (h c (by simp)), ih fun d hd => h d (by simp [hd])]

theorem mem_stripDisallowed_allowed {l : List Char} {c : Char}
    (h : c ∈ stripDisallowed l) : allowedChar c = true := by
  obtain ⟨d, _, rfl⟩ := List.mem_map.mp h
  by_cases hd : allowedChar d = true
  · simp [hd]
  · simp [hd]
    decide

theorem mem_normalizeList_allowed {l : List Char} {c : Char}
    (h : c ∈ normalizeList l) : allowedChar c = true := by
  unfold normalizeList at h
  have h1 : c ∈ collapseWs (stripDisallowed ((htmlUnescape l).map Char.toLower)) :=
    (pyStrip_subseg _).sublist.subset h
  rcases mem_collapseWs h1 with h2 | rfl
  · exact mem_stripDisallowed_allowed h2
  · decide

theorem normalizeList_wsNormed (l : List Char) : WsNormed (normalizeList l) := by
  unfold normalizeList
  have h := collapseWs_wsNormed (stripDisallowed ((htmlUnescape l).map Char.toLower))
  exact ⟨fun c hc => h.1 c ((pyStrip_subseg _).sublist.subset hc),
    List.Chain'.infix h.2 (pyStrip_subseg _)⟩

theorem normalizeList_idem (l : List Char) :
    normalizeList (normalizeList l) = normalizeList l := by
  have hws := normalizeList_wsNormed l
  have hall : ∀ c ∈ normalizeList l, allowedChar c = true := fun _ hc =>
    mem_normalizeList_allowed hc
  have h1 : htmlUnescape (normalizeList l) = normalizeList l :=
    htmlUnescape_eq_self fun c hc => allowedChar_ne_amp (hall c hc)
  have h2 : (normalizeList l).map Char.toLower = normalizeList l :=
    map_toLower_eq_self fun c hc => allowedChar_toLower (hall c hc)
  have h3 : stripDisallowed (normalizeList l) = normalizeList l :=
    stripDisallowed_eq_self hall
  have h4 : collapseWs (normalizeList l) = normalizeList l :=
    collapseWs_eq_self hws
  calc normalizeList (normalizeList l)
      = pyStrip (collapseWs (stripDisallowed
          ((htmlUnescape (normalizeList l)).map Char.toLower))) := rfl
    _ = pyStrip (normalizeList l) := by rw [h1, h2, h3, h4]
    _ = normalizeList l := pyStrip_idem _

/-! ## The claims -/

/-- C4: the transcript normalization of app/normalize.py is idempotent —
one application HTML-unescapes, lowercases, replaces every character outside
the allowed class, collapses whitespace runs and trims, and a second
application leaves the result unchanged, for every input string. -/
theorem C4_normalize_idempotent (s : String) :
    normalize_text (normalize_text s) = normalize_text s :=
  congrArg String.mk (normalizeList_idem s.data)

/-- C7: `ease_from_verdict` is pure, total and deterministic over all
(verdict, confidence) pairs: a "correct" verdict with confidence above 0.85
maps to 4, "correct" otherwise to 3, "partial" to 2, and "wrong" or any
other verdict to 1; the result is always one of 1, 2, 3, 4. -/
theorem C7_ease_mapping (verdict : String) (confidence : ℚ) :
    (verdict = "correct" → 85 / 100 < confidence →
      ease_from_verdict verdict confidence = 4) ∧
    (verdict = "correct" → ¬ 85 / 100 < confidence →
      ease_from_verdict verdict confidence = 3) ∧
    (verdict = "partial" → ease_from_verdict verdict confidence = 2) ∧
    (verdict ≠ "correct" → verdict ≠ "partial" →
      ease_from_verdict verdict confidence = 1) ∧
    (ease_from_verdict verdict confidence = 1 ∨ ease_from_verdict verdict confidence = 2 ∨
      ease_from_verdict verdict confidence = 3 ∨
      ease_from_verdict verdict confidence = 4) := by
  unfold ease_from_verdict
  split_ifs with h1 h2 h3 <;> refine ⟨?_, ?_, ?_, ?_, ?_⟩ <;> simp_all

/-- Witness for C7 at concrete inputs, one per hypothesis case. -/
theorem C7_ease_mapping_witness :
    ease_from_verdict "correct" (9 / 10) = 4 ∧
      ease_from_verdict "correct" (1 / 2) = 3 ∧
      ease_from_verdict "partial" (1 / 2) = 2 ∧
      ease_from_verdict "huh" 1 = 1 :=
  ⟨(C7_ease_mapping "correct" (9 / 10)).1 rfl (by norm_num),
    (C7_ease_mapping "correct" (1 / 2)).2.1 rfl (by norm_num),
    (C7_ease_mapping "partial" (1 / 2)).2.2.1 rfl,
    (C7_ease_mapping "huh" 1).2.2.2.1 (by decide) (by decide)⟩

/-- C3 as stated is false: the sanitizer's pattern carries a `+`, so it
replaces every maximal *run* of characters outside the class by a single
underscore (after stripping), not every character by its own underscore.
On `"a  b"` the code yields `"a_b"` while per-character replacement yields
`"a__b"`. -/
theorem C3_sanitize_counterexample :
    sanitize_deck_name_for_filename "a  b" = "a_b" ∧
      specPerCharSanitize "a  b" = "a__b" ∧
      sanitize_deck_name_for_filename "a  b" ≠ specPerCharSanitize "a  b" := by
  refine ⟨by decide, by decide, by decide⟩

theorem replaceBadRuns_good {l : List Char} {c : Char} (h : c ∈ replaceBadRuns l) :
    goodFileChar c = true := by
  induction l using replaceBadRuns.induct with
  | case1 => simp [replaceBadRuns] at h
  | case2 c' hg =>
    simp [replaceBadRuns, hg] at h
    simpa [h] using hg
  | case3 c' hg =>
    simp [replaceBadRuns, hg] at h
    simp [h]
    decide
  | case4 c' d rest hg ih =>
    rw [replaceBadRuns, if_pos hg] at h
    rcases List.mem_cons.mp h with rfl | h'
    · exact hg
    · exact ih h'
  | case5 c' d rest hg hd ih =>
    rw [replaceBadRuns, if_neg hg, if_pos hd] at h
    rcases List.mem_cons.mp h with rfl | h'
    · decide
    · exact ih h'
  | case6 c' d rest hg hd ih =>
    rw [replaceBadRuns, if_neg hg, if_neg hd] at h
    exact ih h

theorem goodFileChar_toNat {c : Char} (h : goodFileChar c = true) :
    (65 ≤ c.toNat ∧ c.toNat ≤ 90) ∨ (97 ≤ c.toNat ∧ c.toNat ≤ 122) ∨
      (48 ≤ c.toNat ∧ c.toNat ≤ 57) ∨ c.toNat = 46 ∨ c.toNat = 95 ∨ c.toNat = 45 := by
  simp only [goodFileChar, Bool.or_eq_true, Bool.and_eq_true, decide_eq_true_eq] at h
  rcases h with ((((⟨h1, h2⟩ | ⟨h1, h2⟩) | ⟨h1, h2⟩) | rfl) | rfl) | rfl
  · exact Or.inl ⟨h1, h2⟩
  · exact Or.inr (Or.inl ⟨h1, h2⟩)
  · exact Or.inr (Or.inr (Or.inl ⟨h1, h2⟩))
  · decide
  · decide
  · decide

theorem goodFileChar_not_space {c : Char} (h : goodFileChar c = true) :
    ¬ pyIsSpace c = true := by
  intro hsp
  rcases goodFileChar_toNat h with h' | h' | h' | h' | h' | h' <;>
    rcases pyIsSpace_toNat hsp with h'' | h'' | h'' | h'' | h'' | h'' <;> omega

theorem replaceBadRuns_eq_self {l : List Char} (h : ∀ c ∈ l, goodFileChar c = true) :
    replaceBadRuns l = l := by
  induction l using replaceBadRuns.induct with
  | case1 => rfl
  | case2 c hg => simp [replaceBadRuns, hg]
  | case3 c hg => exact absurd (h c (by simp)) hg
  | case4 c d rest hg ih =>
    rw [replaceBadRuns, if_pos hg, ih fun e he => h e (List.mem_cons_of_mem c he)]
  | case5 c d rest hg hd ih => exact absurd (h c (by simp)) hg
  | case6 c d rest hg hd ih => exact absurd (h c (by simp)) hg

/-- C3 amended (as the counterexample forces): the sanitized filename
segment is obtained by stripping leading/trailing whitespace and then
replacing every maximal run of characters outside `[A-Za-z0-9._-]` by a
single `_`; the output therefore contains only characters of that class, a
deck name consisting only of such characters is left unchanged, and
`"Spanish 1/Greetings"` still maps to `"Spanish_1_Greetings"`. -/
theorem C3_sanitize_amended (s : String) :
    (∀ c ∈ (sanitize_deck_name_for_filename s).data, goodFileChar c = true) ∧
      ((∀ c ∈ s.data, goodFileChar c = true) → sanitize_deck_name_for_filename s = s) ∧
      sanitize_deck_name_for_filename "Spanish 1/Greetings" = "Spanish_1_Greetings" := by
  refine ⟨fun c hc => replaceBadRuns_good hc, fun hall => ?_, by decide⟩
  unfold sanitize_deck_name_for_filename
  have hstrip : pyStrip s.data = s.data := by
    unfold pyStrip
    rw [List.dropWhile_eq_self_iff.mpr, List.rdropWhile_eq_self_iff.mpr]
    · intro hl
      exact goodFileChar_not_space (hall _ (List.getLast_mem hl))
    · intro hl
      exact goodFileChar_not_space (hall _ (List.get_mem _ _ hl))
  rw [hstrip, replaceBadRuns_eq_self hall]

/-- Witness for C3's amended claim: the unchanged-input case at a concrete
all-good deck name. -/
theorem C3_sanitize_amended_witness :
    sanitize_deck_name_for_filename "Deck_1.x-y" = "Deck_1.x-y" :=
  (C3_sanitize_amended "Deck_1.x-y").2.1 (by decide)

/-- C9: `extract_lang_from_tags` returns exactly the code segment
(everything after `prefix=`) of the first tag in list order starting with
`prefix=`: whenever the tag list splits as `pre ++ t :: post` with `t`
matching and no tag of `pre` matching, the result *is* `some` of `t`'s code
segment; conversely any `some` result arises that way (so earlier tags
matching a different prefix or containing `prefix=` mid-tag contribute
nothing); and when no tag starts with `prefix=` the result is `none`. -/
theorem C9_tag_extraction (tags : List String) (pfx : String) :
    (∀ pre t post, tags = pre ++ t :: post →
      pyStartsWith t (pfx ++ "=") = true →
      (∀ t' ∈ pre, pyStartsWith t' (pfx ++ "=") = false) →
      extract_lang_from_tags tags pfx = some (t.drop (pfx.length + 1))) ∧
    (∀ c, extract_lang_from_tags tags pfx = some c →
      ∃ pre t post, tags = pre ++ t :: post ∧ pyStartsWith t (pfx ++ "=") = true ∧
        (∀ t' ∈ pre, pyStartsWith t' (pfx ++ "=") = false) ∧
        c = t.drop (pfx.length + 1)) ∧
    ((∀ t ∈ tags, pyStartsWith t (pfx ++ "=") = false) →
      extract_lang_from_tags tags pfx = none) := by
  refine ⟨?_, ?_, ?_⟩
  · intro pre t post hdec ht hpre
    subst hdec
    unfold extract_lang_from_tags
    have hfind : (pre ++ t :: post).find?
        (fun tag => pyStartsWith tag (pfx ++ "=")) = some t := by
      induction pre with
      | nil => exact List.find?_cons_of_pos _ ht
      | cons a pre' ih =>
        rw [List.cons_append,
          List.find?_cons_of_neg _ (by simp [hpre a (by simp)])]
        exact ih fun t' h => hpre t' (List.mem_cons_of_mem a h)
    rw [hfind]
    rfl
  · intro c hc
    unfold extract_lang_from_tags at hc
    obtain ⟨t, ht, rfl⟩ := Option.map_eq_some'.mp hc
    obtain ⟨hstart, pre, post, rfl, hpre⟩ := List.find?_eq_some.mp ht
    exact ⟨pre, t, post, rfl, hstart, fun t' h => by simpa using hpre t' h, rfl⟩
  · intro h
    unfold extract_lang_from_tags
    rw [List.find?_eq_none.mpr fun x hx => by simp [h x hx]]
    rfl

/-- Witness for C9: on a tag list where a different-prefix tag and a mid-tag
occurrence precede the match, the extraction returns the first match's code
segment; on a no-match list it returns `none`. -/
theorem C9_tag_extraction_witness :
    extract_lang_from_tags ["av:back=de", "x av:front=yy", "av:front=fr-FR", "av:front=xx"]
        "av:front" = some "fr-FR" ∧
      extract_lang_from_tags ["av:backx", "front=z"] "av:front" = none :=
  ⟨Eq.trans
      ((C9_tag_extraction ["av:back=de", "x av:front=yy", "av:front=fr-FR", "av:front=xx"]
          "av:front").1 ["av:back=de", "x av:front=yy"] "av:front=fr-FR" ["av:front=xx"]
        rfl (by decide) (by decide))
      (by decide),
    (C9_tag_extraction ["av:backx", "front=z"] "av:front").2.2 (by decide)⟩

/-- C10: the deck-config cache is consulted first and stores only successful
fetches: a cached deck is answered from the cache for any fetch function,
cache unchanged; a failed fetch (missing blob) returns `none` and leaves the
cache unchanged, so an identical later lookup consults the collaborator
again; a successful fetch is returned, stored, and served from the cache by
the next lookup. -/
theorem C10_deck_config_cache (deck : String) (cache : List (String × DeckConfig)) :
    (∀ cfg, cacheLookup cache deck = some cfg →
      ∀ fetch, get_deck_language_config fetch cache deck = (some cfg, cache)) ∧
    (cacheLookup cache deck = none →
      ∀ fetch, fetch (deckConfigFilename deck) = none →
        get_deck_language_config fetch cache deck = (none, cache)) ∧
    (cacheLookup cache deck = none →
      ∀ fetch cfg, fetch (deckConfigFilename deck) = some cfg →
        get_deck_language_config fetch cache deck = (some cfg, (deck, cfg) :: cache) ∧
          cacheLookup ((deck, cfg) :: cache) deck = some cfg) := by
  refine ⟨?_, ?_, ?_⟩
  · intro cfg h fetch
    unfold get_deck_language_config
    rw [h]
  · intro h fetch hf
    unfold get_deck_language_config
    rw [h, hf]
  · intro h fetch cfg hf
    constructor
    · unfold get_deck_language_config
      rw [h, hf]
    · simp [cacheLookup, List.find?]

/-- Witness for C10: a one-entry cache hit, a failed fetch on the empty
cache, and a successful fetch on the empty cache. -/
theorem C10_deck_config_cache_witness :
    get_deck_language_config (fun _ => none) [("D", DeckConfig.mk none none)] "D" =
        (some (DeckConfig.mk none none), [("D", DeckConfig.mk none none)]) ∧
      get_deck_language_config (fun _ => none) [] "D" = (none, []) ∧
      get_deck_language_config (fun _ => some (DeckConfig.mk (some "a") none)) [] "D" =
        (some (DeckConfig.mk (some "a") none), [("D", DeckConfig.mk (some "a") none)]) :=
  ⟨(C10_deck_config_cache "D" [("D", DeckConfig.mk none none)]).1 _ (by decide) _,
    (C10_deck_config_cache "D" []).2.1 (by decide) _ rfl,
    ((C10_deck_config_cache "D" []).2.2 (by decide) _ _ rfl).1⟩

/-- C8: extraction is a pure function of its input with fixed fallbacks:
`None` and empty markup yield `("", null)`, and markup whose parse contains
no acceptable study region yields the visible text of the whole document
with a null language tag. -/
theorem C8_extract_fallbacks (parse : String → List Node) (ex : Bool) :
    html_to_text_readme_only parse none ex = ("", none) ∧
      html_to_text_readme_only parse (some "") ex = ("", none) ∧
      (∀ s, ¬ s.isEmpty = true → findReadmeDiv (parse s) ex = none →
        html_to_text_readme_only parse (some s) ex = (forestGetText (parse s), none)) := by
  refine ⟨rfl, rfl, ?_⟩
  intro s hs hnone
  show (if s.isEmpty = true then ("", none) else readmeCore (parse s) ex) = _
  rw [if_neg hs]
  unfold readmeCore
  rw [hnone]

/-- Witness for C8's no-region case: a document that is a bare text node. -/
theorem C8_extract_fallbacks_witness :
    html_to_text_readme_only (fun _ => [Node.text "x"]) (some "x") true =
      (forestGetText [Node.text "x"], none) :=
  (C8_extract_fallbacks (fun _ => [Node.text "x"]) true).2.2 "x" (by decide) rfl

theorem key_unique {l : List (String × List String)} (h : (l.map Prod.fst).Nodup)
    {x y : String × List String} (hx : x ∈ l) (hy : y ∈ l) (hxy : x.1 = y.1) : x = y := by
  induction l with
  | nil => cases hx
  | cons a t ih =>
    rw [List.map_cons, List.nodup_cons] at h
    rcases List.mem_cons.mp hx with rfl | hx' <;> rcases List.mem_cons.mp hy with rfl | hy'
    · rfl
    · exact absurd (by rw [hxy]; exact List.mem_map_of_mem Prod.fst hy') h.1
    · exact absurd (by rw [← hxy]; exact List.mem_map_of_mem Prod.fst hx') h.1
    · exact ih h.2 hx' hy'

theorem mem_hits_iff {transcript : String} {canonical : List (String × List String)}
    (hkeys : (canonical.map Prod.fst).Nodup) {p : String × List String} (hp : p ∈ canonical) :
    p.1 ∈ (canonical.filter fun ca => (ca.2 ++ [ca.1]).any fun a =>
        pySubstr a (normalize_text transcript)).map Prod.fst ↔
      ∃ a ∈ p.2 ++ [p.1], a.data <:+: (normalize_text transcript).data := by
  constructor
  · intro h
    obtain ⟨x, hx, hx1⟩ := List.mem_map.mp h
    obtain ⟨hxmem, hxq⟩ := List.mem_filter.mp hx
    obtain rfl : x = p := key_unique hkeys hxmem hp hx1
    obtain ⟨a, ha, hsub⟩ := List.any_eq_true.mp hxq
    exact ⟨a, ha, pySubstr_iff.mp hsub⟩
  · intro ⟨a, ha, hsub⟩
    refine List.mem_map.mpr ⟨p, List.mem_filter.mpr ⟨hp, ?_⟩, rfl⟩
    exact List.any_eq_true.mpr ⟨a, ha, pySubstr_iff.mpr hsub⟩

/-- C1: the deterministic judge normalizes the transcript, marks a concept
as hit iff some string among its aliases or its canonical name occurs as a
substring of the normalized transcript, returns verdict "correct" iff every
concept is hit, "partial" iff strictly fewer but at least max(1, total-1)
are hit, "wrong" otherwise, and returns as missing exactly the concept
names not hit; consequently a single-concept table never yields "partial". -/
theorem C1_judge_verdict (transcript : String) (canonical : List (String × List String))
    (hkeys : (canonical.map Prod.fst).Nodup) :
    ∀ v hits missing, list_set_match transcript canonical = (v, hits, missing) →
      (∀ p ∈ canonical,
        p.1 ∈ hits ↔ ∃ a ∈ p.2 ++ [p.1], a.data <:+: (normalize_text transcript).data) ∧
      (v = "correct" ↔ hits.length = canonical.length) ∧
      (v = "partial" ↔ hits.length < canonical.length ∧
        max 1 (canonical.length - 1) ≤ hits.length) ∧
      (v = "wrong" ↔ hits.length ≠ canonical.length ∧
        hits.length < max 1 (canonical.length - 1)) ∧
      (∀ k, k ∈ missing ↔ k ∈ canonical.map Prod.fst ∧ k ∉ hits) ∧
      (canonical.length = 1 → v ≠ "partial") := by
  intro v hits missing heq
  simp only [list_set_match] at heq
  have hlen : ((canonical.filter fun ca => (ca.2 ++ [ca.1]).any fun a =>
      pySubstr a (normalize_text transcript)).map Prod.fst).length ≤ canonical.length := by
    rw [List.length_map]
    exact List.length_filter_le _ canonical
  split_ifs at heq with h1 h2
  · simp only [Prod.mk.injEq] at heq
    obtain ⟨rfl, rfl, rfl⟩ := heq
    have hfil : (canonical.filter fun ca => (ca.2 ++ [ca.1]).any fun a =>
        pySubstr a (normalize_text transcript)) = canonical :=
      (List.filter_sublist canonical).eq_of_length (by
        have := h1
        rwa [List.length_map] at this)
    refine ⟨fun p hp => mem_hits_iff hkeys hp, iff_of_true rfl h1, ?_, ?_, ?_, fun _ => by decide⟩
    · exact iff_of_false (by decide) fun h => absurd h1 (by omega)
    · exact iff_of_false (by decide) fun h => absurd h1 h.1
    · intro k
      simp only [List.mem_nil_iff, false_iff, not_and, not_not]
      intro hk
      rwa [hfil]
  · simp only [Prod.mk.injEq] at heq
    obtain ⟨rfl, rfl, rfl⟩ := heq
    refine ⟨fun p hp => mem_hits_iff hkeys hp, iff_of_false (by decide) h1, ?_, ?_, ?_, ?_⟩
    · exact iff_of_true rfl ⟨lt_of_le_of_ne hlen h1, h2⟩
    · exact iff_of_false (by decide) fun h => absurd h2 (by omega)
    · intro k
      simp only [List.mem_filter, decide_not, Bool.not_eq_eq_eq_not, Bool.not_true,
        decide_eq_false_iff_not]
    · intro htot
      rw [htot] at h1 h2
      simp only [Nat.sub_self, Nat.max_self] at h2
      have : max 1 (1 - 1) = 1 := by omega
      rw [this] at h2
      exact absurd (Nat.le_antisymm (htot ▸ hlen) h2) h1
  · simp only [Prod.mk.injEq] at heq
    obtain ⟨rfl, rfl, rfl⟩ := heq
    refine ⟨fun p hp => mem_hits_iff hkeys hp, iff_of_false (by decide) h1, ?_, ?_, ?_,
      fun _ => by decide⟩
    · exact iff_of_false (by decide) fun h => absurd h.2 h2
    · exact iff_of_true rfl ⟨h1, by omega⟩
    · intro k
      simp only [List.mem_filter, decide_not, Bool.not_eq_eq_eq_not, Bool.not_true,
        decide_eq_false_iff_not]

/-- Witness for C1 at the end-to-end example: transcript
"embb and urllc only" against the three-concept table yields two hits out
of three, within the partial band. -/
theorem C1_judge_verdict_witness :
    (["enhanced mobile broadband", "ultra reliable low latency"] : List String).length <
        ([("enhanced mobile broadband", ["embb", "enhanced mobile broadband"]),
          ("ultra reliable low latency", ["urllc", "ultra reliable low latency"]),
          ("massive machine type",
            ["mmtc", "massive machine type", "massive machine type communications"])] :
          List (String × List String)).length ∧
      max 1 (([("enhanced mobile broadband", ["embb", "enhanced mobile broadband"]),
          ("ultra reliable low latency", ["urllc", "ultra reliable low latency"]),
          ("massive machine type",
            ["mmtc", "massive machine type", "massive machine type communications"])] :
          List (String × List String)).length - 1) ≤
        (["enhanced mobile broadband", "ultra reliable low latency"] : List String).length :=
  ((C1_judge_verdict "embb and urllc only"
      [("enhanced mobile broadband", ["embb", "enhanced mobile broadband"]),
        ("ultra reliable low latency", ["urllc", "ultra reliable low latency"]),
        ("massive machine type",
          ["mmtc", "massive machine type", "massive machine type communications"])]
      (by decide) "partial" ["enhanced mobile broadband", "ultra reliable low latency"]
      ["massive machine type"] (by decide)).2.2.1).mp rfl

theorem pyOrDefault_ne_empty (x : Option String) : pyOrDefault x "en-US" ≠ "" := by
  cases x with
  | none => decide
  | some s =>
    show (if s.isEmpty = true then "en-US" else s) ≠ ""
    split_ifs with h
    · decide
    · intro hrfl
      rw [hrfl] at h
      exact h (by decide)

/-- C2: language resolution for a card is total (it always yields two
non-empty language strings) with strict per-side precedence: a truthy
per-note tag override wins over the deck config, a truthy deck-config value
wins over the default, and when neither supplies a value — including when
the card-metadata fetch fails or yields no deck name — the side resolves to
the fixed default "en-US". -/
theorem C2_resolver_precedence (env : AnkiEnv) :
    ((resolve_language env).1 ≠ "" ∧ (resolve_language env).2 ≠ "") ∧
    (env.card_info = none → resolve_language env = ("en-US", "en-US")) ∧
    (∀ ci, env.card_info = some ci → ci.deckName = none →
      resolve_language env = ("en-US", "en-US")) ∧
    (∀ ci dn, env.card_info = some ci → ci.deckName = some dn → dn.isEmpty = false →
      (∀ c, extract_lang_from_tags (noteTagsOf env ci) "av:front" = some c →
        c.isEmpty = false → (resolve_language env).1 = c) ∧
      (pyTruthy (extract_lang_from_tags (noteTagsOf env ci) "av:front") = false →
        (∀ cfg d, env.deck_config dn = some cfg → cfg.frontLang = some d →
          d.isEmpty = false → (resolve_language env).1 = d) ∧
        (env.deck_config dn = none → (resolve_language env).1 = "en-US") ∧
        (∀ cfg, env.deck_config dn = some cfg → pyTruthy cfg.frontLang = false →
          (resolve_language env).1 = "en-US")) ∧
      (∀ c, extract_lang_from_tags (noteTagsOf env ci) "av:back" = some c →
        c.isEmpty = false → (resolve_language env).2 = c) ∧
      (pyTruthy (extract_lang_from_tags (noteTagsOf env ci) "av:back") = false →
        (∀ cfg d, env.deck_config dn = some cfg → cfg.backLang = some d →
          d.isEmpty = false → (resolve_language env).2 = d) ∧
        (env.deck_config dn = none → (resolve_language env).2 = "en-US") ∧
        (∀ cfg, env.deck_config dn = some cfg → pyTruthy cfg.backLang = false →
          (resolve_language env).2 = "en-US"))) := by
  refine ⟨⟨pyOrDefault_ne_empty _, pyOrDefault_ne_empty _⟩, ?_, ?_, ?_⟩
  · intro h
    unfold resolve_language get_language_hints
    rw [h]
    rfl
  · intro ci hci hdn
    unfold resolve_language get_language_hints
    rw [hci]
    simp only [hdn]
    rfl
  · intro ci dn hci hdn hde
    have hunfold : get_language_hints env =
        (let front0 := extract_lang_from_tags (noteTagsOf env ci) "av:front"
         let back0 := extract_lang_from_tags (noteTagsOf env ci) "av:back"
         if !pyTruthy front0 || !pyTruthy back0 then
           match env.deck_config dn with
           | some cfg =>
             (if pyTruthy front0 then front0 else cfg.frontLang,
               if pyTruthy back0 then back0 else cfg.backLang)
           | none => (front0, back0)
         else (front0, back0)) := by
      unfold get_language_hints
      rw [hci]
      simp only [hdn]
      rw [if_neg (by simp [hde])]
    refine ⟨?_, ?_, ?_, ?_⟩
    · intro c hc hce
      have htr : pyTruthy (extract_lang_from_tags (noteTagsOf env ci) "av:front") = true := by
        rw [hc]
        simp [pyTruthy, hce]
      unfold resolve_language
      rw [hunfold]
      simp only [htr]
      cases hdc : env.deck_config dn <;> cases hb : pyTruthy
          (extract_lang_from_tags (noteTagsOf env ci) "av:back") <;>
        simp [hdc, hb, hc, pyOrDefault, hce]
    · intro hfr
      refine ⟨?_, ?_, ?_⟩
      · intro cfg d hdc hd hde'
        unfold resolve_language
        rw [hunfold]
        simp [hfr, hdc, hd, pyOrDefault, hde']
      · intro hdc
        unfold resolve_language
        rw [hunfold]
        cases hx : extract_lang_from_tags (noteTagsOf env ci) "av:front" with
        | none => simp [hfr, hdc, pyOrDefault]
        | some s =>
          have hse : s.isEmpty = true := by
            by_contra hne
            rw [hx] at hfr
            simp [pyTruthy, Bool.not_eq_true] at hfr
            rw [hfr] at hne
            exact hne (by decide)
          simp [hfr, hdc, hx, pyOrDefault, hse]
      · intro cfg hdc hcf
        unfold resolve_language
        rw [hunfold]
        cases hx : cfg.frontLang with
        | none => simp [hfr, hdc, hx, pyOrDefault]
        | some s =>
          have hse : s.isEmpty = true := by
            rw [hx] at hcf
            simpa [pyTruthy] using hcf
          simp [hfr, hdc, hx, pyOrDefault, hse]
    · intro c hc hce
      have htr : pyTruthy (extract_lang_from_tags (noteTagsOf env ci) "av:back") = true := by
        rw [hc]
        simp [pyTruthy, hce]
      unfold resolve_language
      rw [hunfold]
      simp only [htr]
      cases hdc : env.deck_config dn <;> cases hb : pyTruthy
          (extract_lang_from_tags (noteTagsOf env ci) "av:front") <;>
        simp [hdc, hb, hc, pyOrDefault, hce]
    · intro hbk
      refine ⟨?_, ?_, ?_⟩
      · intro cfg d hdc hd hde'
        unfold resolve_language
        rw [hunfold]
        simp [hbk, hdc, hd, pyOrDefault, hde']
      · intro hdc
        unfold resolve_language
        rw [hunfold]
        cases hx : extract_lang_from_tags (noteTagsOf env ci) "av:back" with
        | none => simp [hbk, hdc, pyOrDefault]
        | some s =>
          have hse : s.isEmpty = true := by
            by_contra hne
            rw [hx] at hbk
            simp [pyTruthy, Bool.not_eq_true] at hbk
            rw [hbk] at hne
            exact hne (by decide)
          simp [hbk, hdc, hx, pyOrDefault, hse]
      · intro cfg hdc hcf
        unfold resolve_language
        rw [hunfold]
        cases hx : cfg.backLang with
        | none => simp [hbk, hdc, hx, pyOrDefault]
        | some s =>
          have hse : s.isEmpty = true := by
            rw [hx] at hcf
            simpa [pyTruthy] using hcf
          simp [hbk, hdc, hx, pyOrDefault, hse]

/-- Witness for C2: with a front tag `av:front=fr-FR` and a deck config
`{frontLang: es-ES, backLang: en-GB}`, the front resolves to the tag and the
back to the deck config; with no collaborator data at all, both sides
resolve to "en-US". -/
theorem C2_resolver_precedence_witness :
    (resolve_language ⟨some ⟨some "Deck", some 5⟩,
        fun _ => some ⟨["av:front=fr-FR"]⟩,
        fun _ => some ⟨some "es-ES", some "en-GB"⟩⟩).1 = "fr-FR" ∧
      (resolve_language ⟨some ⟨some "Deck", some 5⟩,
        fun _ => some ⟨["av:front=fr-FR"]⟩,
        fun _ => some ⟨some "es-ES", some "en-GB"⟩⟩).2 = "en-GB" ∧
      resolve_language ⟨none, fun _ => none, fun _ => none⟩ = ("en-US", "en-US") :=
  ⟨((C2_resolver_precedence _).2.2.2 ⟨some "Deck", some 5⟩ "Deck" rfl rfl (by decide)).1
      "fr-FR" (by decide) (by decide),
    (((C2_resolver_precedence _).2.2.2 ⟨some "Deck", some 5⟩ "Deck" rfl rfl
        (by decide)).2.2.2 (by decide)).1 ⟨some "es-ES", some "en-GB"⟩ "en-GB" rfl rfl
      (by decide),
    (C2_resolver_precedence _).2.1 rfl⟩

/-! The innermost-language fold: the champion only deepens, the final
champion bounds every candidate, and it is the first candidate at its
depth. -/

theorem foldl_innermost_some {l : List (Node × Nat)} {y : Node × Nat} :
    ∃ e, l.foldl innermostStep (some y) = some e := by
  induction l generalizing y with
  | nil => exact ⟨y, rfl⟩
  | cons z rest ih =>
    rw [List.foldl_cons]
    by_cases hz : hasTruthyLang z.1 = true
    · by_cases hd : z.2 > y.2
      · rw [show innermostStep (some y) z = some z by simp [innermostStep, hz, hd]]
        exact ih
      · rw [show innermostStep (some y) z = some y by simp [innermostStep, hz, hd]]
        exact ih
    · rw [show innermostStep (some y) z = some y by simp [innermostStep, hz]]
      exact ih

theorem foldl_innermost_le {l : List (Node × Nat)} {y e : Node × Nat}
    (h : l.foldl innermostStep (some y) = some e) : y.2 ≤ e.2 := by
  induction l generalizing y with
  | nil =>
    obtain rfl := Option.some.inj h
    exact le_refl _
  | cons z rest ih =>
    rw [List.foldl_cons] at h
    by_cases hz : hasTruthyLang z.1 = true
    · by_cases hd : z.2 > y.2
      · rw [show innermostStep (some y) z = some z by simp [innermostStep, hz, hd]] at h
        exact le_of_lt (lt_of_lt_of_le hd (ih h))
      · rw [show innermostStep (some y) z = some y by simp [innermostStep, hz, hd]] at h
        exact ih h
    · rw [show innermostStep (some y) z = some y by simp [innermostStep, hz]] at h
      exact ih h

theorem foldl_innermost_ub {l : List (Node × Nat)} {acc : Option (Node × Nat)}
    {e : Node × Nat} (h : l.foldl innermostStep acc = some e) :
    ∀ x ∈ l, hasTruthyLang x.1 = true → x.2 ≤ e.2 := by
  induction l generalizing acc with
  | nil => intro x hx; cases hx
  | cons z rest ih =>
    rw [List.foldl_cons] at h
    intro x hx hpx
    rcases List.mem_cons.mp hx with rfl | hx'
    · cases acc with
      | none =>
        rw [show innermostStep none x = some x by simp [innermostStep, hpx]] at h
        exact foldl_innermost_le h
      | some y =>
        by_cases hd : x.2 > y.2
        · rw [show innermostStep (some y) x = some x by simp [innermostStep, hpx, hd]] at h
          exact foldl_innermost_le h
        · rw [show innermostStep (some y) x = some y by simp [innermostStep, hpx, hd]] at h
          exact le_trans (not_lt.mp hd) (foldl_innermost_le h)
    · exact ih h x hx' hpx

theorem pickInnermost_eq_none_iff {l : List (Node × Nat)} :
    pickInnermost l = none ↔ ∀ x ∈ l, hasTruthyLang x.1 = false := by
  unfold pickInnermost
  induction l with
  | nil => simp
  | cons z rest ih =>
    rw [List.foldl_cons]
    by_cases hz : hasTruthyLang z.1 = true
    · rw [show innermostStep none z = some z by simp [innermostStep, hz]]
      constructor
      · intro h
        obtain ⟨e, he⟩ := @foldl_innermost_some rest z
        rw [he] at h
        cases h
      · intro h
        exact absurd (h z (by simp)) (by simp [hz])
    · rw [show innermostStep none z = none by simp [innermostStep, hz]]
      rw [ih]
      constructor
      · intro h x hx
        rcases List.mem_cons.mp hx with rfl | hx'
        · exact Bool.not_eq_true _ ▸ (by simpa using hz)
        · exact h x hx'
      · intro h x hx
        exact h x (List.mem_cons_of_mem z hx)

theorem foldl_innermost_first {l : List (Node × Nat)} {acc : Option (Node × Nat)}
    {e : Node × Nat} (h : l.foldl innermostStep acc = some e) :
    acc = some e ∨
      ∃ pre post, l = pre ++ e :: post ∧ hasTruthyLang e.1 = true ∧
        (∀ x ∈ pre, hasTruthyLang x.1 = true → x.2 < e.2) ∧
        (∀ y, acc = some y → y.2 < e.2) := by
  induction l generalizing acc with
  | nil => exact Or.inl h
  | cons z rest ih =>
    rw [List.foldl_cons] at h
    by_cases hz : hasTruthyLang z.1 = true
    · cases acc with
      | none =>
        rw [show innermostStep none z = some z by simp [innermostStep, hz]] at h
        rcases ih h with heq | ⟨pre, post, rfl, hpe, hpre, hacc⟩
        · obtain rfl := Option.some.inj heq
          exact Or.inr ⟨[], rest, rfl, hz, by simp, by simp⟩
        · refine Or.inr ⟨z :: pre, post, rfl, hpe, ?_, by simp⟩
          intro x hx hpx
          rcases List.mem_cons.mp hx with rfl | hx'
          · exact hacc x rfl
          · exact hpre x hx' hpx
      | some y =>
        by_cases hd : z.2 > y.2
        · rw [show innermostStep (some y) z = some z by simp [innermostStep, hz, hd]] at h
          rcases ih h with heq | ⟨pre, post, rfl, hpe, hpre, hacc⟩
          · obtain rfl := Option.some.inj heq
            refine Or.inr ⟨[], rest, rfl, hz, by simp, ?_⟩
            intro y' hy'
            obtain rfl := Option.some.inj hy'
            exact hd
          · refine Or.inr ⟨z :: pre, post, rfl, hpe, ?_, ?_⟩
            · intro x hx hpx
              rcases List.mem_cons.mp hx with rfl | hx'
              · exact hacc x rfl
              · exact hpre x hx' hpx
            · intro y' hy'
              obtain rfl := Option.some.inj hy'
              exact lt_trans hd (hacc z rfl)
        · rw [show innermostStep (some y) z = some y by simp [innermostStep, hz, hd]] at h
          rcases ih h with heq | ⟨pre, post, rfl, hpe, hpre, hacc⟩
          · exact Or.inl heq
          · refine Or.inr ⟨z :: pre, post, rfl, hpe, ?_, hacc⟩
            intro x hx hpx
            rcases List.mem_cons.mp hx with rfl | hx'
            · exact lt_of_le_of_lt (not_lt.mp hd) (hacc y rfl)
            · exact hpre x hx' hpx
    · rw [show innermostStep acc z = acc by simp [innermostStep, hz]] at h
      rcases ih h with heq | ⟨pre, post, rfl, hpe, hpre, hacc⟩
      · exact Or.inl heq
      · refine Or.inr ⟨z :: pre, post, rfl, hpe, ?_, hacc⟩
        intro x hx hpx
        rcases List.mem_cons.mp hx with rfl | hx'
        · exact absurd hpx (by simp [hz])
        · exact hpre x hx' hpx

/-- C5: when extraction finds a study region, the returned language tag is
the language attribute of the element at maximum nesting depth relative to
the region root (root itself at depth 0) among the root and its descendants
that carry a (truthy) language attribute, ties broken by first occurrence in
document order; when no such element exists the region root's own language
attribute is used (null when absent).  In particular the spec's example
markup yields text "hi" with language "en-US". -/
theorem C5_innermost_lang (doc : List Node) (ex : Bool) (rd : Node)
    (hfind : findReadmeDiv doc ex = some rd) :
    (∀ e d, pickInnermost (elemsWithDepth 0 rd) = some (e, d) →
      (readmeCore doc ex).2 = e.langAttr ∧ hasTruthyLang e = true ∧
        (∃ pre post, elemsWithDepth 0 rd = pre ++ (e, d) :: post ∧
          ∀ x ∈ pre, hasTruthyLang x.1 = true → x.2 < d) ∧
        (∀ x ∈ elemsWithDepth 0 rd, hasTruthyLang x.1 = true → x.2 ≤ d)) ∧
    (pickInnermost (elemsWithDepth 0 rd) = none →
      (readmeCore doc ex).2 = rd.langAttr ∧
        ∀ x ∈ elemsWithDepth 0 rd, hasTruthyLang x.1 = false) ∧
    readmeCore [Node.elem "div" ["README"] (some "es-ES")
        [Node.elem "span" [] (some "en-US") [Node.text "hi"]]] false =
      ("hi", some "en-US") := by
  refine ⟨?_, ?_, rfl⟩
  · intro e d hpick
    have hlang : (readmeCore doc ex).2 = e.langAttr := by
      unfold readmeCore
      rw [hfind]
      simp only [hpick]
    rcases @foldl_innermost_first (elemsWithDepth 0 rd) none (e, d) hpick with
      heq | ⟨pre, post, hdec, hpe, hpre, _⟩
    · cases heq
    · exact ⟨hlang, hpe, ⟨pre, post, hdec, hpre⟩, foldl_innermost_ub hpick⟩
  · intro hpick
    have hlang : (readmeCore doc ex).2 = rd.langAttr := by
      unfold readmeCore
      rw [hfind]
      simp only [hpick]
    exact ⟨hlang, pickInnermost_eq_none_iff.mp hpick⟩

/-- Witness for C5 at the example markup: the region is found, the innermost
scan picks the span at depth 1, and the extracted pair is
`("hi", some "en-US")`. -/
theorem C5_innermost_lang_witness :
    (readmeCore [Node.elem "div" ["README"] (some "es-ES")
          [Node.elem "span" [] (some "en-US") [Node.text "hi"]]] false).2 =
        (Node.elem "span" [] (some "en-US") [Node.text "hi"]).langAttr ∧
      readmeCore [Node.elem "div" ["README"] (some "es-ES")
          [Node.elem "span" [] (some "en-US") [Node.text "hi"]]] false =
        ("hi", some "en-US") :=
  ⟨((C5_innermost_lang
        [Node.elem "div" ["README"] (some "es-ES")
          [Node.elem "span" [] (some "en-US") [Node.text "hi"]]] false
        (Node.elem "div" ["README"] (some "es-ES")
          [Node.elem "span" [] (some "en-US") [Node.text "hi"]]) rfl).1
      (Node.elem "span" [] (some "en-US") [Node.text "hi"]) 1 rfl).1,
    (C5_innermost_lang
        [Node.elem "div" ["README"] (some "es-ES")
          [Node.elem "span" [] (some "en-US") [Node.text "hi"]]] false
        (Node.elem "div" ["README"] (some "es-ES")
          [Node.elem "span" [] (some "en-US") [Node.text "hi"]]) rfl).2.2⟩

/-- C6: with `excludeEmbeddedFront` set, every candidate study region nested
inside an embedded-front container is skipped and the search continues: a
selected region is a README div with no `.from-front` div ancestor such that
every earlier README div in document order does have one; when every README
div is nested inside a `.from-front` container nothing is selected.  In
particular, in a document whose first README div sits inside a `.from-front`
container, the later top-level README div wins. -/
theorem C6_embedded_front_skip (doc : List Node) :
    (∀ rd, findReadmeDiv doc true = some rd →
      ∃ pre na post, elemsWithAncForest [] doc = pre ++ na :: post ∧ na.1 = rd ∧
        (na.1.isDiv && hasClass "README" na.1) = true ∧
        (na.2.find? fun a => a.isDiv && hasClass "from-front" a) = none ∧
        (∀ nb ∈ pre, (nb.1.isDiv && hasClass "README" nb.1) = true →
          ∃ a ∈ nb.2, (a.isDiv && hasClass "from-front" a) = true)) ∧
    ((∀ na ∈ elemsWithAncForest [] doc, (na.1.isDiv && hasClass "README" na.1) = true →
        ∃ a ∈ na.2, (a.isDiv && hasClass "from-front" a) = true) →
      findReadmeDiv doc true = none) ∧
    readmeCore [Node.elem "div" ["from-front"] none
        [Node.elem "div" ["README"] none [Node.text "front stuff"]],
      Node.elem "div" ["README"] none [Node.text "back"]] true = ("back", none) := by
  refine ⟨?_, ?_, rfl⟩
  · intro rd hrd
    unfold findReadmeDiv at hrd
    obtain ⟨na, hna, rfl⟩ := Option.map_eq_some'.mp hrd
    obtain ⟨hpred, pre, post, hdec, hpre⟩ := List.find?_eq_some.mp hna
    simp only [Bool.not_true, Bool.false_or, Bool.and_eq_true,
      Option.isNone_iff_eq_none] at hpred
    refine ⟨pre, na, post, hdec, rfl, by simp [hpred.1.1, hpred.1.2], hpred.2, ?_⟩
    intro nb hnb hread
    have hnp := hpre nb hnb
    simp only [Bool.not_true, Bool.false_or, Bool.not_eq_eq_eq_not,
      Bool.and_eq_true, Bool.not_true] at hnp
    rcases hfp : nb.2.find? fun a => a.isDiv && hasClass "from-front" a with _ | a
    · exfalso
      simp [hread, hfp] at hnp
    · have hmem := List.mem_of_find?_eq_some hfp
      have hprop := List.find?_some hfp
      exact ⟨a, hmem, hprop⟩
  · intro h
    unfold findReadmeDiv
    rw [List.find?_eq_none.mpr, Option.map_none']
    intro na hna
    simp only [Bool.not_true, Bool.false_or, Bool.and_eq_true, not_and,
      Option.isNone_iff_eq_none]
    intro hread
    obtain ⟨a, ha, hp⟩ := h na hna (by simp [hread.1, hread.2])
    intro hnone
    rw [List.find?_eq_none] at hnone
    exact hnone a ha hp

/-- Witness for C6: the two-region document resolves to the later top-level
region, and a document whose only README div is inside `.from-front` yields
no region. -/
theorem C6_embedded_front_skip_witness :
    readmeCore [Node.elem "div" ["from-front"] none
          [Node.elem "div" ["README"] none [Node.text "front stuff"]],
        Node.elem "div" ["README"] none [Node.text "back"]] true = ("back", none) ∧
      findReadmeDiv [Node.elem "div" ["from-front"] none
          [Node.elem "div" ["README"] none [Node.text "x"]]] true = none :=
  ⟨(C6_embedded_front_skip []).2.2,
    (C6_embedded_front_skip [Node.elem "div" ["from-front"] none
        [Node.elem "div" ["README"] none [Node.text "x"]]]).2.1 (by decide)⟩

end AnkiVoice
